import Mathlib

set_option maxRecDepth 4000

/-!
Shallow embedding of the Merkle membership circuits of `zcash_proofs`
(`src/circuit/merkle.rs` and `src/circuit/merkle_sha/mod.rs`).

The constraint-system collaborator (bellman) is embedded as an explicit
state: allocated witnesses, registered rank-1 constraints `A·B = C` over
linear combinations, and public-input markers.  Variable `0` is the
constant-one wire; allocated variables are numbered from `1`.

A state carries a `proving` flag: bellman evaluates the value closures
(and hence fails on a missing value) only when a concrete proof is being
constructed; during key generation (shape-only synthesis) no value is
recorded and allocation never fails.

Rust panics (`assert_eq!` failures and `.unwrap()` on an `Err`) are
embedded as distinguished `Failure` constructors, kept separate from the
`SynthesisError` value that `synthesize` returns (`allocMissing`).
-/

section Model

variable {F : Type} [CommRing F] [DecidableEq F]

/-- A linear combination: list of (variable, coefficient) pairs. -/
abbrev LinComb (F : Type) := List (Nat × F)

/-- A rank-1 constraint `a · b = c`. -/
structure Constr (F : Type) where
  a : LinComb F
  b : LinComb F
  c : LinComb F
deriving DecidableEq

/-- Failure outcomes of a synthesis run.  `allocMissing` is the
`SynthesisError::AssignmentMissing` value returned by the call;
the other three model Rust panics (aborts), which are *not* returned
values: `assertInputCount` is `assert_eq!(self.inputs.len(), 1)`,
`assertBitLength` is the `assert_eq!` in `witness_bits`, and
`unwrapPanic` is `.unwrap()` applied to an `Err`. -/
inductive Failure where
  | assertInputCount
  | assertBitLength
  | unwrapPanic
  | allocMissing
deriving DecidableEq

/-- The constraint-system state. -/
structure CSState (F : Type) where
  proving : Bool
  assignment : List (Option F)
  constraints : List (Constr F)
  pubInputs : List Nat
deriving DecidableEq

/-- The assignment as a total function on wires: wire `0` is the constant
one, wire `i+1` is the `i`-th allocated witness (default `0`). -/
def asgL (l : List (Option F)) (v : Nat) : F :=
  if v = 0 then 1 else ((l.getD (v - 1) none).getD 0)

def asg (s : CSState F) : Nat → F := asgL s.assignment

def evalLC (f : Nat → F) (lc : LinComb F) : F :=
  (lc.map (fun p => p.2 * f p.1)).sum

/-- A constraint holds under an assignment. -/
def holds (f : Nat → F) (c : Constr F) : Prop :=
  evalLC f c.a * evalLC f c.b = evalLC f c.c

instance (f : Nat → F) (c : Constr F) : Decidable (holds f c) :=
  inferInstanceAs (Decidable (_ = _))

/-- Every registered constraint is satisfied by the recorded assignment. -/
def satB (s : CSState F) : Bool :=
  s.constraints.all (fun c => decide (holds (asg s) c))

/-- `num::AllocatedNum`: a wire together with its optional concrete value. -/
structure ANum (F : Type) where
  var : Nat
  value : Option F
deriving DecidableEq

/-- `boolean::AllocatedBit`: a wire together with its optional bit value. -/
structure ABit where
  var : Nat
  value : Option Bool
deriving DecidableEq

def boolF (b : Bool) : F := if b then 1 else 0

def pushA (s : CSState F) (v : Option F) : CSState F :=
  { s with assignment := s.assignment ++ [v] }

def enforceCon (s : CSState F) (c : Constr F) : CSState F :=
  { s with constraints := s.constraints ++ [c] }

def inputizeVar (s : CSState F) (v : Nat) : CSState F :=
  { s with pubInputs := s.pubInputs ++ [v] }

/-- `cs.alloc` wrapped as in `AllocatedNum::alloc`: evaluating the value
closure fails (`AssignmentMissing`) exactly when proving with an absent
value; during shape-only synthesis the closure is not evaluated and no
value is recorded. -/
def allocVar (s : CSState F) (v : Option F) :
    Except Failure (ANum F × CSState F) :=
  if s.proving && v.isNone then .error .allocMissing
  else
    .ok (⟨s.assignment.length + 1, if s.proving then v else none⟩,
      pushA s (if s.proving then v else none))

/-- `AllocatedBit::alloc`: allocates the wire and registers the boolean
constraint `(1 - x) · x = 0`; the given optional bit is stored in the
returned gadget. -/
def allocBit (s : CSState F) (v : Option Bool) :
    Except Failure (ABit × CSState F) :=
  if s.proving && v.isNone then .error .allocMissing
  else
    let x := s.assignment.length + 1
    let s₁ := pushA s (if s.proving then v.map boolF else none)
    .ok (⟨x, v⟩, enforceCon s₁ ⟨[(0, 1), (x, -1)], [(x, 1)], []⟩)

/-- Allocate a list of bits in order (the loop bodies of `witness_bits`
and `NoteValue::new`). -/
def allocBits : List (Option Bool) → CSState F →
    Except Failure (List ABit × CSState F)
  | [], s => .ok ([], s)
  | v :: vs, s => do
    let (b, s₁) ← allocBit s v
    let (bs, s₂) ← allocBits vs s₁
    .ok (b :: bs, s₂)

/-- The bits of one byte, most significant first:
`(0..8).rev().map(move |i| m >> i & 1 == 1)`. -/
def byteBitsMSB (m : Nat) : List Bool :=
  (List.range 8).reverse.map (fun i => (m >>> i) &&& 1 == 1)

/-- `value.iter().flat_map(...)`: all bits of the byte string, each byte
most-significant-bit first. -/
def allBits (bytes : List Nat) : List Bool :=
  bytes.flatMap byteBitsMSB

/-- `witness_bits`: turn an optional byte string into `numBits` boolean
witnesses, discarding the first `skipBits` bits; the `assert_eq!` on the
produced bit count is the `assertBitLength` abort. -/
def witnessBits (s : CSState F) (value : Option (List Nat))
    (numBits skipBits : Nat) : Except Failure (List ABit × CSState F) :=
  let bitValues : List (Option Bool) :=
    match value with
    | some v => ((allBits v).drop skipBits).map some
    | none => List.replicate numBits none
  if bitValues.length ≠ numBits then .error .assertBitLength
  else allocBits bitValues s

def witnessU256 (s : CSState F) (value : Option (List Nat)) :
    Except Failure (List ABit × CSState F) :=
  witnessBits s value 256 0

def witnessU252 (s : CSState F) (value : Option (List Nat)) :
    Except Failure (List ABit × CSState F) :=
  witnessBits s value 252 4

/-- The bit loop of `NoteValue::new`: push `val & 1 == 1`, then shift. -/
def u64Bits : Nat → Nat → List Bool
  | 0, _ => []
  | n + 1, val => (val &&& 1 == 1) :: u64Bits n (val >>> 1)

structure NoteValue where
  value : Option Nat
  bits : List ABit

/-- `NoteValue::new`: allocate 64 boolean witnesses, least significant
bit first. -/
def noteValueNew (s : CSState F) (value : Option Nat) :
    Except Failure (NoteValue × CSState F) :=
  let values : List (Option Bool) :=
    match value with
    | some v => (u64Bits 64 v).map some
    | none => List.replicate 64 none
  match allocBits values s with
  | .error e => .error e
  | .ok (bits, s₁) => .ok (⟨value, bits⟩, s₁)

/-- Rust's `slice::chunks(n)`: consecutive groups of `n`, the last group
possibly shorter. -/
def chunksOf (n : Nat) : List α → List (List α)
  | [] => []
  | a :: l => (a :: l.take (n - 1)) :: chunksOf n (l.drop (n - 1))
  termination_by l => l.length
  decreasing_by simp [List.length_drop]; omega

/-- `NoteValue::bits_le`: `self.bits.chunks(8).flat_map(|v| v.iter().rev())`
(each `AllocatedBit` is wrapped into `Boolean::Is`, which we keep as the
underlying bit gadget). -/
def bitsLe (nv : NoteValue) : List ABit :=
  ((chunksOf 8 nv.bits).map List.reverse).flatten

/-- The accumulating loop of `NoteValue::lc` and of multipacking:
`tmp = tmp + (coeff, bit); coeff = coeff.double()`. -/
def packLC (coeff : F) : List ABit → LinComb F
  | [] => []
  | b :: bs => (b.var, coeff) :: packLC (coeff * 2) bs

/-- `NoteValue::lc`: the linear combination `Σ bit_i · 2^i`. -/
def noteLC (nv : NoteValue) : LinComb F := packLC 1 nv.bits

/-- The value of a packed bit list with ascending doubling coefficients. -/
def packVal (coeff : F) : List Bool → F
  | [] => 0
  | b :: bs => (if b then coeff else 0) + packVal (coeff * 2) bs

/-- First constraint of the conditional swap:
`(b - a) · bit = x - a` (so `bit = 1` forces `x = b`, `bit = 0` forces
`x = a`). -/
def swapConstrA (aV bV bitV xV : Nat) : Constr F :=
  ⟨[(bV, 1), (aV, -1)], [(bitV, 1)], [(xV, 1), (aV, -1)]⟩

/-- Second constraint of the conditional swap:
`(a - b) · bit = y - b`. -/
def swapConstrB (aV bV bitV yV : Nat) : Constr F :=
  ⟨[(aV, 1), (bV, -1)], [(bitV, 1)], [(yV, 1), (bV, -1)]⟩

/-- Modelled from the spec: bellman's `AllocatedNum::conditionally_reverse`
(an external collaborator of this repository), which, given `(a, b, bit)`,
produces `(x, y)` with an enforced constraint equivalent to
`x = b·bit + a·(1-bit)` and `y = a·bit + b·(1-bit)`. -/
def condReverse (s : CSState F) (a b : ANum F) (bit : ABit) :
    Except Failure ((ANum F × ANum F) × CSState F) := do
  let xv : Option F :=
    match bit.value, a.value, b.value with
    | some c, some av, some bv => some (if c then bv else av)
    | _, _, _ => none
  let yv : Option F :=
    match bit.value, a.value, b.value with
    | some c, some av, some bv => some (if c then av else bv)
    | _, _, _ => none
  let (x, s₁) ← allocVar s xv
  let (y, s₂) ← allocVar s₁ yv
  let s₃ := enforceCon s₂ (swapConstrA a.var b.var bit.var x.var)
  let s₄ := enforceCon s₃ (swapConstrB a.var b.var bit.var y.var)
  .ok ((x, y), s₄)

/-- Modelled from the spec: one bit pair of `conditionally_swap_u256`
(defined in the `input` module of the repository, which is missing from
the sources): allocate the swapped pair and enforce the selection with
the same constraint shape as the field-element variant. -/
def condSwapPair (s : CSState F) (cond a b : ABit) :
    Except Failure ((ABit × ABit) × CSState F) := do
  let xv : Option Bool :=
    match cond.value, a.value, b.value with
    | some c, some av, some bv => some (if c then bv else av)
    | _, _, _ => none
  let yv : Option Bool :=
    match cond.value, a.value, b.value with
    | some c, some av, some bv => some (if c then av else bv)
    | _, _, _ => none
  let (x, s₁) ← allocBit s xv
  let (y, s₂) ← allocBit s₁ yv
  let s₃ := enforceCon s₂ (swapConstrA a.var b.var cond.var x.var)
  let s₄ := enforceCon s₃ (swapConstrB a.var b.var cond.var y.var)
  .ok ((x, y), s₄)

/-- Modelled from the spec: `conditionally_swap_u256` (missing `input`
module): swap `(lhs, rhs)` bit by bit based on the condition; a length
mismatch is an `assert_eq!` abort in the source gadget. -/
def condSwapBits (cond : ABit) : List ABit → List ABit → CSState F →
    Except Failure ((List ABit × List ABit) × CSState F)
  | [], [], s => .ok (([], []), s)
  | a :: la, b :: lb, s => do
    let ((x, y), s₁) ← condSwapPair s cond a b
    let ((xs, ys), s₂) ← condSwapBits cond la lb s₁
    .ok ((x :: xs, y :: ys), s₂)
  | _, _, _ => .error .assertBitLength

/-- `sha256_block_no_padding` (external collaborator): its internal
constraints are out of scope; it contributes 256 fresh boolean witnesses
whose values are the compression of the preimage bit values. -/
def shaGadget (sha : List Bool → List Bool) (pre : List ABit)
    (s : CSState F) : Except Failure (List ABit × CSState F) :=
  let inVals : Option (List Bool) := pre.mapM ABit.value
  allocBits ((List.range 256).map
    (fun i => inVals.map (fun bs => (sha bs).getD i false))) s

/-- Modelled from the spec: the bit-packing scheme groups consecutive
bits into field-sized public-input elements; the capacity of the
BLS12-381 scalar field is 254 bits. -/
def fieldCapacity : Nat := 254

/-- Modelled from the spec: for each group, allocate a public-input
element whose value is the little-endian combination of the group's bits
and enforce `input · 1 = Σ bit_i · 2^i`. -/
def packChunks : List (List ABit) → CSState F → Except Failure (CSState F)
  | [], s => .ok s
  | chunk :: rest, s => do
    let (inp, s₁) ← allocVar s ((chunk.mapM ABit.value).map (packVal 1))
    let s₂ := enforceCon s₁ ⟨[(inp.var, 1)], [(0, 1)], packLC 1 chunk⟩
    packChunks rest (inputizeVar s₂ inp.var)

def packIntoInputs (s : CSState F) (bits : List ABit) :
    Except Failure (CSState F) :=
  packChunks (chunksOf fieldCapacity bits) s

/-- One JoinSplit input: an optional 256-bit leaf and its authentication
path (per layer: optional 32-byte sibling and side bit). -/
structure JSInput where
  leaf : Option (List Nat)
  authPath : List (Option (List Nat × Bool))

/-- `.unwrap()` applied to the result of `witness_u256`: an `Err` value
becomes a panic; a panic raised inside `witness_bits` (its `assert_eq!`)
has already aborted and passes through. -/
def unwrapW : Except Failure (List ABit × CSState F) →
    Except Failure (List ABit × CSState F)
  | .error .assertBitLength => .error .assertBitLength
  | .error _ => .error .unwrapPanic
  | .ok r => .ok r

/-- The per-layer loop of `JoinSplit::synthesize`: witness the side bit
and the sibling, conditionally swap, hash.  (The root equality check
that would compare the final `cur` with `rt` is commented out in the
source and therefore absent here.) -/
def jsLayers (sha : List Bool → List Bool) :
    List (Option (List Nat × Bool)) → List ABit → CSState F →
    Except Failure (List ABit × CSState F)
  | [], cur, s => .ok (cur, s)
  | layer :: rest, cur, s => do
    let (bit, s₁) ← allocBit s (layer.map (·.2))
    let (rhs, s₂) ← witnessU256 s₁ (layer.map (·.1))
    let ((xs, ys), s₃) ← condSwapBits bit cur rhs s₂
    let (cur₁, s₄) ← shaGadget sha (xs ++ ys) s₃
    jsLayers sha rest cur₁ s₄

/-- The loop over JoinSplit inputs; `witness_u256` for the leaf is
`.unwrap()`ed in the source. -/
def jsInputsLoop (sha : List Bool → List Bool) :
    List JSInput → CSState F → Except Failure (CSState F)
  | [], s => .ok s
  | inp :: rest, s => do
    let (leafBits, s₁) ← unwrapW (witnessU256 s inp.leaf)
    let (_, s₂) ← jsLayers sha inp.authPath leafBits s₁
    jsInputsLoop sha rest s₂

/-- `JoinSplit::synthesize`: assert the input count, witness `rt`
(`.unwrap()`ed), walk each input's authentication path, then pack the
witnessed root bits into public inputs. -/
def jsSynthesize (sha : List Bool → List Bool) (inputs : List JSInput)
    (rt : Option (List Nat)) (s : CSState F) :
    Except Failure (CSState F) :=
  if inputs.length ≠ 1 then .error .assertInputCount
  else do
    let (rtBits, s₁) ← unwrapW (witnessU256 s rt)
    let s₂ ← jsInputsLoop sha inputs s₁
    packIntoInputs s₂ rtBits

/-- The per-layer loop of `MerklePedersen::synthesize`.  The Pedersen
hash gadget and the bit decompositions it consumes are external
collaborators; the gadget contributes a fresh witness whose value is the
layer hash of the swapped pair. -/
def merkleLoop (hash : Nat → F → F → F) :
    Nat → ANum F → List (Option (F × Bool)) → CSState F →
    Except Failure (ANum F × CSState F)
  | _, cur, [], s => .ok (cur, s)
  | i, cur, e :: rest, s => do
    let (bit, s₁) ← allocBit s (e.map (·.2))
    let (pe, s₂) ← allocVar s₁ (e.map (·.1))
    let ((xl, xr), s₃) ← condReverse s₂ cur pe bit
    let hv : Option F :=
      match xl.value, xr.value with
      | some l, some r => some (hash i l r)
      | _, _ => none
    let (cur₁, s₄) ← allocVar s₃ hv
    merkleLoop hash (i + 1) cur₁ rest s₄

/-- `AllocatedNum::inputize`: allocate a public-input wire equal to the
number and mark it. -/
def inputizeNum (s : CSState F) (n : ANum F) :
    Except Failure (ANum F × CSState F) := do
  let (inp, s₁) ← allocVar s n.value
  let s₂ := enforceCon s₁ ⟨[(inp.var, 1)], [(0, 1)], [(n.var, 1)]⟩
  .ok (inp, inputizeVar s₂ inp.var)

/-- `MerklePedersen::synthesize`: allocate the leaf, ascend the
authentication path, allocate the anchor `rt`, register the single root
constraint — which the source writes as `A = cur`, `B = rt`, `C = 0`,
i.e. `cur · rt = 0` — and expose `rt` as a public input. -/
def merkleSynthesize (hash : Nat → F → F → F) (leaf : Option F)
    (authPath : List (Option (F × Bool))) (anchor : Option F)
    (s : CSState F) : Except Failure (CSState F) := do
  let (cm, s₁) ← allocVar s leaf
  let (cur, s₂) ← merkleLoop hash 0 cm authPath s₁
  let (rt, s₃) ← allocVar s₂ anchor
  let s₄ := enforceCon s₃ ⟨[(cur.var, 1)], [(rt.var, 1)], []⟩
  let (_, s₅) ← inputizeNum s₄ rt
  .ok s₅

/-- The out-of-circuit reference hash ladder (the computation performed
by the test in `merkle.rs` to derive the root): at each layer the current
value and the sibling are ordered by the side bit and hashed. -/
def refMerkleGo (hash : Nat → F → F → F) :
    Nat → F → List (F × Bool) → F
  | _, cur, [] => cur
  | i, cur, (sib, b) :: rest =>
    refMerkleGo hash (i + 1) (if b then hash i sib cur else hash i cur sib) rest

def refMerkleRoot (hash : Nat → F → F → F) (leaf : F)
    (path : List (F × Bool)) : F :=
  refMerkleGo hash 0 leaf path

def initCS (p : Bool) : CSState F := ⟨p, [], [], []⟩

end Model

/-- The BLS12-381 scalar field modulus (the `Fr` of `pairing::bls12_381`,
the only engine instantiated by this repository). -/
def blsR : Nat :=
  52435875175126190479447740508185965837690552500527637822603658699938581184513

abbrev Fp := ZMod blsR

deriving instance DecidableEq for Except

section Invariants

variable {F : Type} [CommRing F] [DecidableEq F]

/-- All variables of a linear combination are already allocated. -/
def lcWF (n : Nat) (lc : LinComb F) : Prop := ∀ p ∈ lc, p.1 ≤ n

/-- All variables of a constraint are already allocated. -/
def cWF (n : Nat) (c : Constr F) : Prop :=
  lcWF n c.a ∧ lcWF n c.b ∧ lcWF n c.c

/-- `t` is a monotone extension of `s`: same mode, with further
witnesses and constraints only appended. -/
structure CSExt (s t : CSState F) : Prop where
  prov : t.proving = s.proving
  asgn : ∃ u, t.assignment = s.assignment ++ u
  cons : ∃ u, t.constraints = s.constraints ++ u

/-- Invariant: all registered constraints are well formed and satisfied
by the recorded assignment. -/
def GoodCS (s : CSState F) : Prop :=
  (∀ c ∈ s.constraints, cWF s.assignment.length c) ∧
  (∀ c ∈ s.constraints, holds (asg s) c)

/-- A bit gadget is allocated, carries a concrete value, and the
recorded assignment agrees with it. -/
def BitGood (s : CSState F) (ab : ABit) : Prop :=
  1 ≤ ab.var ∧ ab.var ≤ s.assignment.length ∧
  ∃ b, ab.value = some b ∧ asg s ab.var = boolF b

/-- A number gadget is allocated, carries a concrete value, and the
recorded assignment agrees with it. -/
def NumGood (s : CSState F) (n : ANum F) : Prop :=
  1 ≤ n.var ∧ n.var ≤ s.assignment.length ∧
  ∃ x, n.value = some x ∧ asg s n.var = x

end Invariants

/-- A degenerate layer hash, used to exercise the circuits on concrete
inputs. -/
def hashOne : Nat → Fp → Fp → Fp := fun _ _ _ => 1

/-- A degenerate compression function, used to exercise the bit-hash
walker on concrete inputs. -/
def shaZero : List Bool → List Bool := fun _ => List.replicate 256 false

/-- Depth-8 all-zero authentication path for the algebraic walker. -/
def c2path : List (Fp × Bool) := List.replicate 8 ((0 : Fp), false)

def bytes0 : List Nat := List.replicate 32 0

def bytes1 : List Nat := List.replicate 32 1

/-- The constraint system produced by synthesizing `MerklePedersen` with
an empty authentication path, leaf 1 and anchor 1: wire 1 is the leaf
(= recomputed root `cur`), wire 2 the anchor witness `rt`, wire 3 the
public-input copy of `rt`; the first constraint is the root constraint
`cur · rt = 0` and the second the `inputize` equality. -/
def c1State : CSState Fp :=
  ⟨true, [some 1, some 1, some 1],
    [⟨[(1, 1)], [(2, 1)], []⟩, ⟨[(3, 1)], [(0, 1)], [(2, 1)]⟩], [3]⟩

section Lemmas

set_option linter.unusedSectionVars false

variable {F : Type} [CommRing F] [DecidableEq F]

theorem ok_bind {ε α β : Type} (x : α) (f : α → Except ε β) :
    (Except.ok x >>= f) = f x := rfl

theorem evalLC_congr {f g : Nat → F} {lc : LinComb F}
    (h : ∀ p ∈ lc, f p.1 = g p.1) : evalLC f lc = evalLC g lc := by
  unfold evalLC
  induction lc with
  | nil => rfl
  | cons p l ih =>
    simp only [List.map_cons, List.sum_cons]
    rw [h p (by simp), ih (fun q hq => h q (by simp [hq]))]

theorem asgL_zero (l : List (Option F)) : asgL l 0 = 1 := by
  simp [asgL]

theorem asgL_append {l t : List (Option F)} {v : Nat}
    (hv : v ≤ l.length) : asgL (l ++ t) v = asgL l v := by
  unfold asgL
  rcases Nat.eq_zero_or_pos v with h0 | hpos
  · simp [h0]
  · have hne : v ≠ 0 := Nat.pos_iff_ne_zero.mp hpos
    have hlt : v - 1 < l.length := by omega
    simp only [if_neg hne]
    rw [List.getD_eq_getElem?_getD, List.getD_eq_getElem?_getD,
      List.getElem?_append_left hlt]

theorem asgL_push_last {l : List (Option F)} {v : Option F} :
    asgL (l ++ [v]) (l.length + 1) = v.getD 0 := by
  unfold asgL
  simp [List.getD_eq_getElem?_getD, List.getElem?_append_right]

theorem holds_append {l t : List (Option F)} {c : Constr F}
    (hwf : cWF l.length c) (h : holds (asgL l) c) :
    holds (asgL (l ++ t)) c := by
  obtain ⟨ha, hb, hc⟩ := hwf
  unfold holds at h ⊢
  rw [evalLC_congr (fun p hp => asgL_append (ha p hp)),
    evalLC_congr (fun p hp => asgL_append (hb p hp)),
    evalLC_congr (fun p hp => asgL_append (hc p hp))]
  exact h

theorem CSExt.refl (s : CSState F) : CSExt s s :=
  ⟨rfl, ⟨[], by simp⟩, ⟨[], by simp⟩⟩

theorem CSExt.comp {s t u : CSState F} (h1 : CSExt s t) (h2 : CSExt t u) :
    CSExt s u := by
  obtain ⟨p1, ⟨a1, ha1⟩, ⟨c1, hc1⟩⟩ := h1
  obtain ⟨p2, ⟨a2, ha2⟩, ⟨c2, hc2⟩⟩ := h2
  exact ⟨p2.trans p1, ⟨a1 ++ a2, by rw [ha2, ha1, List.append_assoc]⟩,
    ⟨c1 ++ c2, by rw [hc2, hc1, List.append_assoc]⟩⟩

theorem CSExt.len_le {s t : CSState F} (h : CSExt s t) :
    s.assignment.length ≤ t.assignment.length := by
  obtain ⟨u, hu⟩ := h.asgn
  simp [hu]

theorem asg_mono {s t : CSState F} (h : CSExt s t) {v : Nat}
    (hv : v ≤ s.assignment.length) : asg t v = asg s v := by
  obtain ⟨u, hu⟩ := h.asgn
  unfold asg
  rw [hu, asgL_append hv]

theorem cWF_mono {n m : Nat} {c : Constr F} (hnm : n ≤ m)
    (h : cWF n c) : cWF m c := by
  obtain ⟨ha, hb, hc⟩ := h
  exact ⟨fun p hp => le_trans (ha p hp) hnm,
    fun p hp => le_trans (hb p hp) hnm,
    fun p hp => le_trans (hc p hp) hnm⟩

theorem BitGood.monoB {s t : CSState F} {ab : ABit} (hext : CSExt s t)
    (h : BitGood s ab) : BitGood t ab := by
  obtain ⟨h1, h2, b, hv, hasg⟩ := h
  exact ⟨h1, le_trans h2 hext.len_le, b, hv, by rw [asg_mono hext h2, hasg]⟩

theorem NumGood.monoN {s t : CSState F} {n : ANum F} (hext : CSExt s t)
    (h : NumGood s n) : NumGood t n := by
  obtain ⟨h1, h2, x, hv, hasg⟩ := h
  exact ⟨h1, le_trans h2 hext.len_le, x, hv, by rw [asg_mono hext h2, hasg]⟩

theorem GoodCS.push {s : CSState F} (v : Option F) (h : GoodCS s) :
    GoodCS (pushA s v) := by
  obtain ⟨hwf, hsat⟩ := h
  constructor
  · intro c hc
    exact cWF_mono (by simp [pushA]) (hwf c hc)
  · intro c hc
    exact holds_append (hwf c hc) (hsat c hc)

theorem GoodCS.enforce {s : CSState F} {c : Constr F} (h : GoodCS s)
    (hwf : cWF s.assignment.length c) (hh : holds (asg s) c) :
    GoodCS (enforceCon s c) := by
  obtain ⟨hwf0, hsat0⟩ := h
  constructor
  · intro d hd
    simp only [enforceCon, List.mem_append, List.mem_singleton] at hd
    rcases hd with hd | hd
    · exact hwf0 d hd
    · exact hd ▸ hwf
  · intro d hd
    simp only [enforceCon, List.mem_append, List.mem_singleton] at hd
    rcases hd with hd | hd
    · exact hsat0 d hd
    · exact hd ▸ hh

theorem GoodCS.inputize {s : CSState F} (v : Nat) (h : GoodCS s) :
    GoodCS (inputizeVar s v) := h

theorem satB_of_good {s : CSState F} (h : GoodCS s) : satB s = true := by
  unfold satB
  rw [List.all_eq_true]
  intro c hc
  exact decide_eq_true (h.2 c hc)

theorem goodCS_init (p : Bool) : GoodCS (initCS (F := F) p) :=
  ⟨by simp [initCS], by simp [initCS]⟩

theorem pushA_ext {s : CSState F} (v : Option F) : CSExt s (pushA s v) :=
  ⟨rfl, ⟨[v], rfl⟩, ⟨[], by simp [pushA]⟩⟩

theorem enforce_ext {s : CSState F} (c : Constr F) :
    CSExt s (enforceCon s c) :=
  ⟨rfl, ⟨[], by simp [enforceCon]⟩, ⟨[c], rfl⟩⟩

theorem inputize_ext {s : CSState F} (v : Nat) :
    CSExt s (inputizeVar s v) :=
  ⟨rfl, ⟨[], by simp [inputizeVar]⟩, ⟨[], by simp [inputizeVar]⟩⟩

theorem asg_enforce {s : CSState F} (c : Constr F) :
    asg (enforceCon s c) = asg s := rfl

theorem asg_inputize {s : CSState F} (v : Nat) :
    asg (inputizeVar s v) = asg s := rfl

theorem asg_pushA_last {s : CSState F} (v : Option F) :
    asg (pushA s v) (s.assignment.length + 1) = v.getD 0 :=
  asgL_push_last

theorem allocVar_some_spec {s : CSState F} (hp : s.proving = true) (x : F) :
    ∃ t, allocVar s (some x) = .ok (⟨s.assignment.length + 1, some x⟩, t) ∧
      CSExt s t ∧ (GoodCS s → GoodCS t) ∧
      NumGood t ⟨s.assignment.length + 1, some x⟩ ∧
      t.assignment.length = s.assignment.length + 1 ∧ t.proving = true := by
  refine ⟨pushA s (some x), by simp [allocVar, hp], pushA_ext _,
    GoodCS.push _, ?_, by simp [pushA], by simp [pushA, hp]⟩
  refine ⟨Nat.le_add_left 1 _, by simp [pushA], x, rfl, ?_⟩
  rw [asg_pushA_last]
  rfl

theorem allocBit_some_spec {s : CSState F} (hp : s.proving = true) (b : Bool) :
    ∃ t, allocBit s (some b) = .ok (⟨s.assignment.length + 1, some b⟩, t) ∧
      CSExt s t ∧ (GoodCS s → GoodCS t) ∧
      BitGood t ⟨s.assignment.length + 1, some b⟩ ∧
      t.assignment.length = s.assignment.length + 1 ∧ t.proving = true := by
  have hasg : asg (pushA s (some (boolF b))) (s.assignment.length + 1) =
      (boolF b : F) := by
    rw [asg_pushA_last]
    rfl
  have h0 : asg (pushA s (some (boolF b))) 0 = (1 : F) := asgL_zero _
  refine ⟨enforceCon (pushA s (some (boolF b)))
      ⟨[(0, 1), (s.assignment.length + 1, -1)],
        [(s.assignment.length + 1, 1)], []⟩,
    by simp [allocBit, hp], CSExt.comp (pushA_ext _) (enforce_ext _),
    ?_, ?_, by simp [pushA, enforceCon], by simp [pushA, enforceCon, hp]⟩
  · intro hg
    refine (hg.push _).enforce ⟨?_, ?_, ?_⟩ ?_
    · intro p hp'
      simp [pushA] at hp' ⊢
      rcases hp' with h | h <;> simp [h]
    · intro p hp'
      simp [pushA] at hp' ⊢
      simp [hp']
    · intro p hp'
      simp at hp'
    · show holds (asg (pushA s (some (boolF b)))) _
      unfold holds evalLC
      simp only [List.map_cons, List.map_nil, List.sum_cons, List.sum_nil]
      rw [h0, hasg]
      cases b <;> simp [boolF]
  · refine ⟨Nat.le_add_left 1 _, by simp [pushA, enforceCon], b, rfl, ?_⟩
    rw [asg_enforce]
    exact hasg

theorem allocBits_spec (bs : List Bool) :
    ∀ (s : CSState F), s.proving = true →
    ∃ out t, allocBits (bs.map some) s = .ok (out, t) ∧ CSExt s t ∧
      (GoodCS s → GoodCS t) ∧ out.length = bs.length ∧
      (∀ ab ∈ out, BitGood t ab) ∧ out.map ABit.value = bs.map some ∧
      t.assignment.length = s.assignment.length + bs.length ∧
      t.proving = true := by
  induction bs with
  | nil =>
    intro s hp
    exact ⟨[], s, rfl, CSExt.refl s, id, rfl, by simp, rfl, by simp, hp⟩
  | cons b bs ih =>
    intro s hp
    obtain ⟨t₁, heq₁, hext₁, hgood₁, hbit₁, hlen₁, hp₁⟩ :=
      allocBit_some_spec hp b
    obtain ⟨out, t₂, heq₂, hext₂, hgood₂, hlen₂, hbits₂, hvals₂, hlen₂',
      hp₂⟩ := ih t₁ hp₁
    refine ⟨⟨s.assignment.length + 1, some b⟩ :: out, t₂, ?_,
      CSExt.comp hext₁ hext₂, fun hg => hgood₂ (hgood₁ hg), by simp [hlen₂],
      ?_, by simp [hvals₂], by simp only [List.length_cons]; omega, hp₂⟩
    · simp only [List.map_cons, allocBits, heq₁, ok_bind, heq₂]
    · intro ab hab
      rcases List.mem_cons.mp hab with h | h
      · exact h ▸ BitGood.monoB hext₂ hbit₁
      · exact hbits₂ ab h

theorem evalLC_nil (f : Nat → F) : evalLC f ([] : LinComb F) = 0 := rfl

theorem evalLC_one (f : Nat → F) (u : Nat) :
    evalLC f [(u, (1 : F))] = f u := by
  simp [evalLC]

theorem evalLC_two (f : Nat → F) (u v : Nat) :
    evalLC f [(u, (1 : F)), (v, (-1 : F))] = f u - f v := by
  simp [evalLC]
  ring

theorem BitGood.valEqB {s : CSState F} {ab : ABit} {b : Bool}
    (h : BitGood s ab) (hv : ab.value = some b) : asg s ab.var = boolF b := by
  obtain ⟨_, _, b', hv', ha⟩ := h
  rw [hv] at hv'
  cases hv'
  exact ha

theorem NumGood.valEqN {s : CSState F} {n : ANum F} {x : F}
    (h : NumGood s n) (hv : n.value = some x) : asg s n.var = x := by
  obtain ⟨_, _, x', hv', ha⟩ := h
  rw [hv] at hv'
  cases hv'
  exact ha

theorem holds_swapA {f : Nat → F} {aV bV bitV xV : Nat} :
    holds f (swapConstrA aV bV bitV xV) ↔
      (f bV - f aV) * f bitV = f xV - f aV := by
  unfold holds swapConstrA
  rw [show (⟨[(bV, 1), (aV, -1)], [(bitV, 1)], [(xV, 1), (aV, -1)]⟩ :
    Constr F).a = [(bV, 1), (aV, -1)] from rfl]
  rw [show (⟨[(bV, 1), (aV, -1)], [(bitV, 1)], [(xV, 1), (aV, -1)]⟩ :
    Constr F).b = [(bitV, 1)] from rfl]
  rw [show (⟨[(bV, 1), (aV, -1)], [(bitV, 1)], [(xV, 1), (aV, -1)]⟩ :
    Constr F).c = [(xV, 1), (aV, -1)] from rfl]
  rw [evalLC_two, evalLC_one, evalLC_two]

theorem holds_swapB {f : Nat → F} {aV bV bitV yV : Nat} :
    holds f (swapConstrB aV bV bitV yV) ↔
      (f aV - f bV) * f bitV = f yV - f bV := by
  unfold holds swapConstrB
  rw [show (⟨[(aV, 1), (bV, -1)], [(bitV, 1)], [(yV, 1), (bV, -1)]⟩ :
    Constr F).a = [(aV, 1), (bV, -1)] from rfl]
  rw [show (⟨[(aV, 1), (bV, -1)], [(bitV, 1)], [(yV, 1), (bV, -1)]⟩ :
    Constr F).b = [(bitV, 1)] from rfl]
  rw [show (⟨[(aV, 1), (bV, -1)], [(bitV, 1)], [(yV, 1), (bV, -1)]⟩ :
    Constr F).c = [(yV, 1), (bV, -1)] from rfl]
  rw [evalLC_two, evalLC_one, evalLC_two]

theorem swap_boolA (c av bv : Bool) :
    ((boolF bv : F) - boolF av) * boolF c =
      boolF (if c then bv else av) - boolF av := by
  cases c <;> cases av <;> cases bv <;> simp [boolF]

theorem swap_boolB (c av bv : Bool) :
    ((boolF av : F) - boolF bv) * boolF c =
      boolF (if c then av else bv) - boolF bv := by
  cases c <;> cases av <;> cases bv <;> simp [boolF]

theorem cWF_swapA {n aV bV bitV xV : Nat} (ha : aV ≤ n) (hb : bV ≤ n)
    (hbit : bitV ≤ n) (hx : xV ≤ n) :
    cWF n (swapConstrA (F := F) aV bV bitV xV) := by
  refine ⟨?_, ?_, ?_⟩ <;> intro p hp <;> simp [swapConstrA] at hp
  · rcases hp with h | h <;> simp [h, ha, hb]
  · simp [hp, hbit]
  · rcases hp with h | h <;> simp [h, ha, hx]

theorem cWF_swapB {n aV bV bitV yV : Nat} (ha : aV ≤ n) (hb : bV ≤ n)
    (hbit : bitV ≤ n) (hy : yV ≤ n) :
    cWF n (swapConstrB (F := F) aV bV bitV yV) := by
  refine ⟨?_, ?_, ?_⟩ <;> intro p hp <;> simp [swapConstrB] at hp
  · rcases hp with h | h <;> simp [h, ha, hb]
  · simp [hp, hbit]
  · rcases hp with h | h <;> simp [h, hb, hy]

theorem condSwapPair_spec {s : CSState F} {cond a b : ABit} {c av bv : Bool}
    (hp : s.proving = true)
    (hcondg : BitGood s cond) (hag : BitGood s a) (hbg : BitGood s b)
    (hcond : cond.value = some c) (ha : a.value = some av)
    (hb : b.value = some bv) :
    ∃ x y t, condSwapPair s cond a b = .ok ((x, y), t) ∧ CSExt s t ∧
      (GoodCS s → GoodCS t) ∧ BitGood t x ∧ BitGood t y ∧
      x.value = some (if c then bv else av) ∧
      y.value = some (if c then av else bv) ∧
      t.assignment.length = s.assignment.length + 2 ∧ t.proving = true := by
  obtain ⟨t₁, heq₁, hext₁, hgood₁, hx₁, hlen₁, hp₁⟩ :=
    allocBit_some_spec hp (if c then bv else av)
  obtain ⟨t₂, heq₂, hext₂, hgood₂, hy₂, hlen₂, hp₂⟩ :=
    allocBit_some_spec hp₁ (if c then av else bv)
  refine ⟨⟨s.assignment.length + 1, some (if c then bv else av)⟩,
    ⟨t₁.assignment.length + 1, some (if c then av else bv)⟩,
    enforceCon (enforceCon t₂
        (swapConstrA a.var b.var cond.var (s.assignment.length + 1)))
      (swapConstrB a.var b.var cond.var (t₁.assignment.length + 1)),
    ?_, ?_, ?_, ?_, ?_, rfl, rfl, ?_, ?_⟩
  · simp only [condSwapPair, hcond, ha, hb, heq₁, ok_bind, heq₂]
  · exact CSExt.comp hext₁ (CSExt.comp hext₂
      (CSExt.comp (enforce_ext _) (enforce_ext _)))
  · intro hg
    have hg₂ := hgood₂ (hgood₁ hg)
    have hext₁₂ := CSExt.comp hext₁ hext₂
    have hagood := BitGood.monoB hext₁₂ hag
    have hbgood := BitGood.monoB hext₁₂ hbg
    have hcondgood := BitGood.monoB hext₁₂ hcondg
    have hxgood := BitGood.monoB hext₂ hx₁
    have hA : holds (asg t₂)
        (swapConstrA a.var b.var cond.var (s.assignment.length + 1)) := by
      rw [holds_swapA, hagood.valEqB ha, hbgood.valEqB hb,
        hcondgood.valEqB hcond, hxgood.valEqB rfl]
      exact swap_boolA c av bv
    have hB : holds (asg t₂)
        (swapConstrB a.var b.var cond.var (t₁.assignment.length + 1)) := by
      rw [holds_swapB, hagood.valEqB ha, hbgood.valEqB hb,
        hcondgood.valEqB hcond, hy₂.valEqB rfl]
      exact swap_boolB c av bv
    have hwfA : cWF t₂.assignment.length
        (swapConstrA (F := F) a.var b.var cond.var
          (s.assignment.length + 1)) :=
      cWF_swapA (le_trans hag.2.1 hext₁₂.len_le)
        (le_trans hbg.2.1 hext₁₂.len_le)
        (le_trans hcondg.2.1 hext₁₂.len_le) hxgood.2.1
    have hwfB : cWF t₂.assignment.length
        (swapConstrB (F := F) a.var b.var cond.var
          (t₁.assignment.length + 1)) :=
      cWF_swapB (le_trans hag.2.1 hext₁₂.len_le)
        (le_trans hbg.2.1 hext₁₂.len_le)
        (le_trans hcondg.2.1 hext₁₂.len_le) hy₂.2.1
    exact (hg₂.enforce hwfA hA).enforce hwfB hB
  · exact BitGood.monoB (CSExt.comp hext₂
      (CSExt.comp (enforce_ext _) (enforce_ext _))) hx₁
  · exact BitGood.monoB (CSExt.comp (enforce_ext _) (enforce_ext _)) hy₂
  · simp only [enforceCon]
    omega
  · simp only [enforceCon]
    exact hp₂

theorem condSwapBits_spec {cond : ABit} {c : Bool}
    (hcond : cond.value = some c) :
    ∀ (la lb : List ABit) (s : CSState F), s.proving = true →
      BitGood s cond → (∀ ab ∈ la, BitGood s ab) →
      (∀ ab ∈ lb, BitGood s ab) → la.length = lb.length →
      ∃ xs ys t, condSwapBits cond la lb s = .ok ((xs, ys), t) ∧
        CSExt s t ∧ (GoodCS s → GoodCS t) ∧
        (∀ ab ∈ xs, BitGood t ab) ∧ (∀ ab ∈ ys, BitGood t ab) ∧
        xs.length = la.length ∧ ys.length = la.length ∧
        t.proving = true := by
  intro la
  induction la with
  | nil =>
    intro lb s hp _ _ _ hlen
    cases lb with
    | nil =>
      exact ⟨[], [], s, rfl, CSExt.refl s, id, by simp, by simp, rfl, rfl, hp⟩
    | cons b lb => simp at hlen
  | cons a la ih =>
    intro lb s hp hcondg hla hlb hlen
    cases lb with
    | nil => simp at hlen
    | cons b lb =>
      obtain ⟨_, _, av, hav, _⟩ := hla a (by simp)
      obtain ⟨_, _, bv, hbv, _⟩ := hlb b (by simp)
      obtain ⟨x, y, t₁, heq₁, hext₁, hgood₁, hx, hy, hxv, hyv, hlen₁, hp₁⟩ :=
        condSwapPair_spec hp hcondg (hla a (by simp)) (hlb b (by simp))
          hcond hav hbv
      obtain ⟨xs, ys, t₂, heq₂, hext₂, hgood₂, hxs, hys, hxsl, hysl, hp₂⟩ :=
        ih lb t₁ hp₁ (BitGood.monoB hext₁ hcondg)
          (fun ab hab => BitGood.monoB hext₁ (hla ab (by simp [hab])))
          (fun ab hab => BitGood.monoB hext₁ (hlb ab (by simp [hab])))
          (by simpa using hlen)
      refine ⟨x :: xs, y :: ys, t₂, ?_, CSExt.comp hext₁ hext₂,
        fun hg => hgood₂ (hgood₁ hg), ?_, ?_, by simp [hxsl], by simp [hysl],
        hp₂⟩
      · simp only [condSwapBits, heq₁, ok_bind, heq₂]
      · intro ab hab
        rcases List.mem_cons.mp hab with h | h
        · exact h ▸ BitGood.monoB hext₂ hx
        · exact hxs ab h
      · intro ab hab
        rcases List.mem_cons.mp hab with h | h
        · exact h ▸ BitGood.monoB hext₂ hy
        · exact hys ab h

theorem mapM_values : ∀ {l : List ABit},
    (∀ ab ∈ l, ∃ b, ab.value = some b) →
    ∃ bs, l.mapM ABit.value = some bs ∧
      l.map ABit.value = bs.map some ∧ bs.length = l.length := by
  intro l
  induction l with
  | nil => exact fun _ => ⟨[], rfl, rfl, rfl⟩
  | cons a l ih =>
    intro h
    obtain ⟨b, hb⟩ := h a (by simp)
    obtain ⟨bs, hbs, hmap, hblen⟩ := ih (fun ab hab => h ab (by simp [hab]))
    refine ⟨b :: bs, ?_, by simp [hb, hmap], by simp [hblen]⟩
    rw [List.mapM_cons, hb, hbs]
    rfl

theorem shaGadget_spec (sha : List Bool → List Bool) (pre : List ABit)
    {s : CSState F} (hp : s.proving = true)
    (hvals : ∀ ab ∈ pre, ∃ b, ab.value = some b) :
    ∃ out t, shaGadget sha pre s = .ok (out, t) ∧ CSExt s t ∧
      (GoodCS s → GoodCS t) ∧ (∀ ab ∈ out, BitGood t ab) ∧
      out.length = 256 ∧ t.proving = true := by
  obtain ⟨bs, hbs, _, _⟩ := mapM_values hvals
  obtain ⟨out, t, heq, hext, hgood, hlen, hbits, _, _, hpt⟩ :=
    allocBits_spec ((List.range 256).map (fun i => (sha bs).getD i false))
      s hp
  refine ⟨out, t, ?_, hext, hgood, hbits, by simp [hlen], hpt⟩
  unfold shaGadget
  rw [hbs, ← heq]
  simp only [List.map_map]
  rfl

theorem byteBitsMSB_length (m : Nat) : (byteBitsMSB m).length = 8 := by
  simp [byteBitsMSB]

theorem allBits_length (bytes : List Nat) :
    (allBits bytes).length = 8 * bytes.length := by
  induction bytes with
  | nil => rfl
  | cons b bs ih =>
    simp only [allBits, List.flatMap_cons, List.length_append,
      byteBitsMSB_length, List.length_cons]
    simp only [allBits] at ih
    rw [ih]
    ring

theorem evalLC_cons (f : Nat → F) (p : Nat × F) (lc : LinComb F) :
    evalLC f (p :: lc) = p.2 * f p.1 + evalLC f lc := by
  simp [evalLC]

theorem witnessBits_some_spec {s : CSState F} (hp : s.proving = true)
    (bytes : List Nat) (numBits skipBits : Nat)
    (hlen : 8 * bytes.length - skipBits = numBits) :
    ∃ out t, witnessBits s (some bytes) numBits skipBits = .ok (out, t) ∧
      CSExt s t ∧ (GoodCS s → GoodCS t) ∧ (∀ ab ∈ out, BitGood t ab) ∧
      out.length = numBits ∧
      out.map ABit.value = ((allBits bytes).drop skipBits).map some ∧
      t.assignment.length = s.assignment.length + numBits ∧
      t.proving = true := by
  have hbl : ((allBits bytes).drop skipBits).length = numBits := by
    rw [List.length_drop, allBits_length]
    exact hlen
  obtain ⟨out, t, heq, hext, hgood, holen, hbits, hvals, hslen, hpt⟩ :=
    allocBits_spec ((allBits bytes).drop skipBits) s hp
  refine ⟨out, t, ?_, hext, hgood, hbits, by rw [holen, hbl], hvals,
    by rw [hslen, hbl], hpt⟩
  unfold witnessBits
  simp only [List.length_map, hbl, ne_eq, not_true_eq_false, if_false,
    if_neg]
  exact heq

theorem packLC_wf {n : Nat} : ∀ {chunk : List ABit},
    (∀ ab ∈ chunk, ab.var ≤ n) → ∀ (coeff : F),
    lcWF n (packLC coeff chunk) := by
  intro chunk
  induction chunk with
  | nil =>
    intro _ coeff p hp
    simp [packLC] at hp
  | cons b bs ih =>
    intro h coeff p hp
    simp only [packLC, List.mem_cons] at hp
    rcases hp with h1 | h1
    · subst h1
      exact h b (by simp)
    · exact ih (fun ab hab => h ab (by simp [hab])) (coeff * 2) p h1

theorem evalLC_packLC {s : CSState F} :
    ∀ (chunk : List ABit) (bs : List Bool),
      chunk.map ABit.value = bs.map some →
      (∀ ab ∈ chunk, BitGood s ab) →
      ∀ coeff : F, evalLC (asg s) (packLC coeff chunk) = packVal coeff bs := by
  intro chunk
  induction chunk with
  | nil =>
    intro bs hmap _ coeff
    cases bs with
    | nil => rfl
    | cons b bs => simp at hmap
  | cons a chunk ih =>
    intro bs hmap hgood coeff
    cases bs with
    | nil => simp at hmap
    | cons b bs =>
      simp only [List.map_cons, List.cons.injEq] at hmap
      obtain ⟨hval, hrest⟩ := hmap
      have ha := (hgood a (by simp)).valEqB hval
      simp only [packLC]
      rw [evalLC_cons]
      rw [show ((a.var, coeff) : Nat × F).2 = coeff from rfl,
        show ((a.var, coeff) : Nat × F).1 = a.var from rfl, ha,
        ih bs hrest (fun ab hab => hgood ab (by simp [hab])) (coeff * 2)]
      cases b <;> simp [packVal, boolF]

theorem chunksOf_subset {α : Type} (n : Nat) :
    ∀ (l : List α), ∀ ch ∈ chunksOf n l, ∀ x ∈ ch, x ∈ l
  | [] => by simp [chunksOf]
  | a :: l => by
    intro ch hch x hx
    rw [chunksOf] at hch
    rcases List.mem_cons.mp hch with h | h
    · subst h
      rcases List.mem_cons.mp hx with h | h
      · simp [h]
      · exact List.mem_cons_of_mem a (List.take_subset _ _ h)
    · exact List.mem_cons_of_mem a
        (List.drop_subset _ _ (chunksOf_subset n (l.drop (n - 1)) ch h x hx))
  termination_by l => l.length
  decreasing_by simp [List.length_drop]; omega

theorem packChunks_spec :
    ∀ (chunks : List (List ABit)) (s : CSState F), s.proving = true →
      (∀ ch ∈ chunks, ∀ ab ∈ ch, BitGood s ab) →
      ∃ t, packChunks chunks s = .ok t ∧ CSExt s t ∧
        (GoodCS s → GoodCS t) ∧ t.proving = true := by
  intro chunks
  induction chunks with
  | nil =>
    intro s hp _
    exact ⟨s, rfl, CSExt.refl s, id, hp⟩
  | cons ch rest ih =>
    intro s hp hgoods
    have hch := hgoods ch (by simp)
    obtain ⟨bs, hbs, hmap, hbsl⟩ := mapM_values
      (fun ab hab => ((hch ab hab).2.2).imp (fun b hb => hb.1))
    obtain ⟨t₁, heq₁, hext₁, hgood₁, hnum₁, hlen₁, hp₁⟩ :=
      allocVar_some_spec hp (packVal 1 bs)
    have hholds : holds (asg t₁)
        (⟨[(s.assignment.length + 1, 1)], [(0, 1)], packLC 1 ch⟩ :
          Constr F) := by
      unfold holds
      rw [show (⟨[(s.assignment.length + 1, 1)], [(0, 1)], packLC 1 ch⟩ :
          Constr F).a = [(s.assignment.length + 1, 1)] from rfl]
      rw [show (⟨[(s.assignment.length + 1, 1)], [(0, 1)], packLC 1 ch⟩ :
          Constr F).b = [(0, 1)] from rfl]
      rw [show (⟨[(s.assignment.length + 1, 1)], [(0, 1)], packLC 1 ch⟩ :
          Constr F).c = packLC 1 ch from rfl]
      rw [evalLC_one, evalLC_one, hnum₁.valEqN rfl]
      rw [show asg t₁ 0 = (1 : F) from asgL_zero _, mul_one]
      rw [evalLC_packLC ch bs hmap
        (fun ab hab => BitGood.monoB hext₁ (hch ab hab)) 1]
    have hwf : cWF t₁.assignment.length
        (⟨[(s.assignment.length + 1, 1)], [(0, 1)], packLC 1 ch⟩ :
          Constr F) := by
      refine ⟨?_, ?_, ?_⟩
      · intro p hp'
        simp only [List.mem_singleton] at hp'
        subst hp'
        simp [hlen₁]
      · intro p hp'
        simp only [List.mem_singleton] at hp'
        subst hp'
        simp
      · exact packLC_wf
          (fun ab hab => le_trans (hch ab hab).2.1 hext₁.len_le) 1
    obtain ⟨t, heqr, hextr, hgoodr, hpt⟩ := ih
      (inputizeVar (enforceCon t₁
        ⟨[(s.assignment.length + 1, 1)], [(0, 1)], packLC 1 ch⟩)
        (s.assignment.length + 1))
      (by simpa [inputizeVar, enforceCon] using hp₁)
      (fun ch' hch' ab hab =>
        BitGood.monoB (CSExt.comp (enforce_ext _) (inputize_ext _))
          (BitGood.monoB hext₁ (hgoods ch' (by simp [hch']) ab hab)))
    refine ⟨t, ?_, ?_, ?_, hpt⟩
    · simp only [packChunks, hbs, Option.map_some, Option.map_some', heq₁, ok_bind]
      exact heqr
    · exact CSExt.comp hext₁ (CSExt.comp (enforce_ext _)
        (CSExt.comp (inputize_ext _) hextr))
    · intro hg
      exact hgoodr (((hgood₁ hg).enforce hwf hholds).inputize _)

theorem jsLayers_spec (sha : List Bool → List Bool) :
    ∀ (path : List (List Nat × Bool)) (cur : List ABit) (s : CSState F),
      s.proving = true → (∀ ab ∈ cur, BitGood s ab) →
      (∀ p ∈ path, p.1.length = 32) → cur.length = 256 →
      ∃ out t, jsLayers sha (path.map some) cur s = .ok (out, t) ∧
        CSExt s t ∧ (GoodCS s → GoodCS t) ∧
        (∀ ab ∈ out, BitGood t ab) ∧ out.length = 256 ∧
        t.proving = true := by
  intro path
  induction path with
  | nil =>
    intro cur s hp hcur _ hlen
    exact ⟨cur, s, rfl, CSExt.refl s, id, hcur, hlen, hp⟩
  | cons layer rest ih =>
    intro cur s hp hcur hlens hlen
    obtain ⟨sib, bb⟩ := layer
    have hsib : sib.length = 32 := hlens (sib, bb) (by simp)
    obtain ⟨t₁, heq₁, hext₁, hgood₁, hbit₁, hlen₁, hp₁⟩ :=
      allocBit_some_spec hp bb
    obtain ⟨rhs, t₂, heq₂, hext₂, hgood₂, hrhs₂, hrhslen, _, _, hp₂⟩ :=
      witnessBits_some_spec hp₁ sib 256 0 (by rw [hsib])
    have hcur₂ : ∀ ab ∈ cur, BitGood t₂ ab := fun ab hab =>
      BitGood.monoB hext₂ (BitGood.monoB hext₁ (hcur ab hab))
    obtain ⟨xs, ys, t₃, heq₃, hext₃, hgood₃, hxs, hys, hxsl, hysl, hp₃⟩ :=
      condSwapBits_spec (c := bb) rfl cur rhs t₂ hp₂
        (BitGood.monoB hext₂ hbit₁) hcur₂ hrhs₂ (by rw [hlen, hrhslen])
    obtain ⟨cur₁, t₄, heq₄, hext₄, hgood₄, hcur₄, hcur₄len, hp₄⟩ :=
      shaGadget_spec sha (xs ++ ys) hp₃ (fun ab hab => by
        rcases List.mem_append.mp hab with h | h
        · exact ((hxs ab h).2.2).imp (fun b hb => hb.1)
        · exact ((hys ab h).2.2).imp (fun b hb => hb.1))
    obtain ⟨out, t₅, heq₅, hext₅, hgood₅, hout₅, houtlen, hp₅⟩ :=
      ih cur₁ t₄ hp₄ hcur₄ (fun p hp' => hlens p (by simp [hp'])) hcur₄len
    refine ⟨out, t₅, ?_,
      CSExt.comp hext₁ (CSExt.comp hext₂ (CSExt.comp hext₃
        (CSExt.comp hext₄ hext₅))),
      fun hg => hgood₅ (hgood₄ (hgood₃ (hgood₂ (hgood₁ hg)))),
      hout₅, houtlen, hp₅⟩
    simp only [List.map_cons, jsLayers, Option.map_some, Option.map_some',
      heq₁, ok_bind, witnessU256, heq₂, heq₃, heq₄, heq₅]

theorem c3_layers_sat (sha : List Bool → List Bool) (rt leaf : List Nat)
    (path : List (List Nat × Bool)) (hrt : rt.length = 32)
    (hleaf : leaf.length = 32) (hpath : ∀ p ∈ path, p.1.length = 32) :
    ∃ t, jsSynthesize (F := F) sha [⟨some leaf, path.map some⟩] (some rt)
        (initCS true) = .ok t ∧ satB t = true := by
  obtain ⟨rtBits, s₁, heq₁, hext₁, hgood₁, hrt₁, hrtlen, _, _, hp₁⟩ :=
    witnessBits_some_spec (s := initCS (F := F) true) rfl rt 256 0
      (by rw [hrt])
  obtain ⟨leafBits, s₂, heq₂, hext₂, hgood₂, hleaf₂, hleaflen, _, _, hp₂⟩ :=
    witnessBits_some_spec hp₁ leaf 256 0 (by rw [hleaf])
  obtain ⟨out, s₃, heq₃, hext₃, hgood₃, hout₃, houtlen, hp₃⟩ :=
    jsLayers_spec sha path leafBits s₂ hp₂ hleaf₂ hpath hleaflen
  have hrtgood₃ : ∀ ab ∈ rtBits, BitGood s₃ ab := fun ab hab =>
    BitGood.monoB hext₃ (BitGood.monoB hext₂ (hrt₁ ab hab))
  obtain ⟨t, heq₄, hext₄, hgood₄, hp₄⟩ :=
    packChunks_spec (chunksOf fieldCapacity rtBits) s₃ hp₃
      (fun ch hch ab hab =>
        hrtgood₃ ab (chunksOf_subset fieldCapacity rtBits ch hch ab hab))
  refine ⟨t, ?_,
    satB_of_good (hgood₄ (hgood₃ (hgood₂ (hgood₁ (goodCS_init true)))))⟩
  unfold jsSynthesize
  rw [if_neg (by simp)]
  simp only [witnessU256, heq₁, unwrapW, ok_bind, jsInputsLoop, heq₂, heq₃,
    packIntoInputs, heq₄]

theorem except_bind_error {ε α β : Type} {x : Except ε α}
    {g : α → Except ε β} {e : ε} (h : (x >>= g) = .error e) :
    x = .error e ∨ ∃ a, x = .ok a ∧ g a = .error e := by
  cases x with
  | error e₁ =>
    left
    have h₁ : (Except.error e₁ : Except ε β) = .error e := h
    rw [Except.error.injEq] at h₁
    rw [h₁]
  | ok a =>
    right
    exact ⟨a, rfl, h⟩

theorem allocVar_error {s : CSState F} {v : Option F} {f : Failure}
    (h : allocVar s v = .error f) : f = .allocMissing := by
  unfold allocVar at h
  split at h
  · rw [Except.error.injEq] at h
    exact h.symm
  · simp at h

theorem allocBit_error {s : CSState F} {v : Option Bool} {f : Failure}
    (h : allocBit s v = .error f) : f = .allocMissing := by
  unfold allocBit at h
  split at h
  · rw [Except.error.injEq] at h
    exact h.symm
  · simp at h

theorem allocBits_error : ∀ {vs : List (Option Bool)} {s : CSState F}
    {f : Failure}, allocBits vs s = .error f → f = .allocMissing := by
  intro vs
  induction vs with
  | nil =>
    intro s f h
    simp [allocBits] at h
  | cons v vs ih =>
    intro s f h
    unfold allocBits at h
    rcases except_bind_error h with h1 | ⟨⟨b, s₁⟩, _, h⟩
    · exact allocBit_error h1
    rcases except_bind_error h with h2 | ⟨⟨bs, s₂⟩, _, h⟩
    · exact ih h2
    simp at h

theorem witnessBits_error {s : CSState F} {v : Option (List Nat)}
    {n k : Nat} {f : Failure} (h : witnessBits s v n k = .error f) :
    f = .assertBitLength ∨ f = .allocMissing := by
  unfold witnessBits at h
  split at h
  · dsimp only at h
    split at h
    · rw [Except.error.injEq] at h
      exact Or.inl h.symm
    · exact Or.inr (allocBits_error h)
  · dsimp only at h
    split at h
    · rw [Except.error.injEq] at h
      exact Or.inl h.symm
    · exact Or.inr (allocBits_error h)

theorem unwrapW_error {x : Except Failure (List ABit × CSState F)}
    {f : Failure} (h : unwrapW x = .error f) :
    f = .assertBitLength ∨ f = .unwrapPanic := by
  cases x with
  | ok r => simp [unwrapW] at h
  | error e =>
    cases e <;> simp [unwrapW] at h <;> simp [h]

theorem condReverse_error {s : CSState F} {a b : ANum F} {bit : ABit}
    {f : Failure} (h : condReverse s a b bit = .error f) :
    f = .allocMissing := by
  unfold condReverse at h
  rcases except_bind_error h with h1 | ⟨⟨x, s₁⟩, _, h⟩
  · exact allocVar_error h1
  rcases except_bind_error h with h2 | ⟨⟨y, s₂⟩, _, h⟩
  · exact allocVar_error h2
  simp at h

theorem condSwapPair_error {s : CSState F} {cond a b : ABit} {f : Failure}
    (h : condSwapPair s cond a b = .error f) : f = .allocMissing := by
  unfold condSwapPair at h
  rcases except_bind_error h with h1 | ⟨⟨x, s₁⟩, _, h⟩
  · exact allocBit_error h1
  rcases except_bind_error h with h2 | ⟨⟨y, s₂⟩, _, h⟩
  · exact allocBit_error h2
  simp at h

theorem condSwapBits_error {cond : ABit} :
    ∀ {la lb : List ABit} {s : CSState F} {f : Failure},
      condSwapBits cond la lb s = .error f →
      f = .assertBitLength ∨ f = .allocMissing := by
  intro la
  induction la with
  | nil =>
    intro lb s f h
    cases lb with
    | nil => simp [condSwapBits] at h
    | cons b lb =>
      unfold condSwapBits at h
      rw [Except.error.injEq] at h
      exact Or.inl h.symm
  | cons a la ih =>
    intro lb s f h
    cases lb with
    | nil =>
      unfold condSwapBits at h
      rw [Except.error.injEq] at h
      exact Or.inl h.symm
    | cons b lb =>
      unfold condSwapBits at h
      rcases except_bind_error h with h1 | ⟨⟨⟨x, y⟩, s₁⟩, _, h⟩
      · exact Or.inr (condSwapPair_error h1)
      rcases except_bind_error h with h2 | ⟨⟨⟨xs, ys⟩, s₂⟩, _, h⟩
      · exact ih h2
      simp at h

theorem shaGadget_error {sha : List Bool → List Bool} {pre : List ABit}
    {s : CSState F} {f : Failure} (h : shaGadget sha pre s = .error f) :
    f = .allocMissing := by
  unfold shaGadget at h
  exact allocBits_error h

theorem packChunks_error : ∀ {chunks : List (List ABit)} {s : CSState F}
    {f : Failure}, packChunks chunks s = .error f → f = .allocMissing := by
  intro chunks
  induction chunks with
  | nil =>
    intro s f h
    simp [packChunks] at h
  | cons ch rest ih =>
    intro s f h
    unfold packChunks at h
    rcases except_bind_error h with h1 | ⟨⟨inp, s₁⟩, _, h⟩
    · exact allocVar_error h1
    exact ih h

theorem jsLayers_error (sha : List Bool → List Bool) :
    ∀ {path : List (Option (List Nat × Bool))} {cur : List ABit}
      {s : CSState F} {f : Failure},
      jsLayers sha path cur s = .error f →
      f = .assertBitLength ∨ f = .allocMissing := by
  intro path
  induction path with
  | nil =>
    intro cur s f h
    simp [jsLayers] at h
  | cons layer rest ih =>
    intro cur s f h
    unfold jsLayers at h
    rcases except_bind_error h with h1 | ⟨⟨bit, s₁⟩, _, h⟩
    · exact Or.inr (allocBit_error h1)
    rcases except_bind_error h with h2 | ⟨⟨rhs, s₂⟩, _, h⟩
    · exact witnessBits_error h2
    rcases except_bind_error h with h3 | ⟨⟨⟨xs, ys⟩, s₃⟩, _, h⟩
    · exact condSwapBits_error h3
    rcases except_bind_error h with h4 | ⟨⟨cur₁, s₄⟩, _, h⟩
    · exact Or.inr (shaGadget_error h4)
    exact ih h

theorem jsInputsLoop_error (sha : List Bool → List Bool) :
    ∀ {inputs : List JSInput} {s : CSState F} {f : Failure},
      jsInputsLoop sha inputs s = .error f → f ≠ .assertInputCount := by
  intro inputs
  induction inputs with
  | nil =>
    intro s f h
    simp [jsInputsLoop] at h
  | cons inp rest ih =>
    intro s f h
    unfold jsInputsLoop at h
    rcases except_bind_error h with h1 | ⟨⟨leafBits, s₁⟩, _, h⟩
    · rcases unwrapW_error h1 with h2 | h2 <;> simp [h2]
    rcases except_bind_error h with h2 | ⟨⟨out, s₂⟩, _, h⟩
    · rcases jsLayers_error sha h2 with h3 | h3 <;> simp [h3]
    exact ih h

theorem jsSynthesize_len1_error {sha : List Bool → List Bool}
    {inputs : List JSInput} {rt : Option (List Nat)} {s : CSState F}
    {f : Failure} (hlen : inputs.length = 1)
    (h : jsSynthesize sha inputs rt s = .error f) :
    f ≠ .assertInputCount := by
  unfold jsSynthesize at h
  rw [if_neg (by simp [hlen])] at h
  rcases except_bind_error h with h1 | ⟨⟨rtBits, s₁⟩, _, h⟩
  · rcases unwrapW_error h1 with h2 | h2 <;> simp [h2]
  rcases except_bind_error h with h2 | ⟨s₂, _, h⟩
  · exact jsInputsLoop_error sha h2
  have := packChunks_error h
  simp [this]

theorem inputizeNum_error {s : CSState F} {n : ANum F} {f : Failure}
    (h : inputizeNum s n = .error f) : f = .allocMissing := by
  unfold inputizeNum at h
  rcases except_bind_error h with h1 | ⟨⟨inp, s₁⟩, _, h⟩
  · exact allocVar_error h1
  simp at h

theorem merkleLoop_error (hash : Nat → F → F → F) :
    ∀ {path : List (Option (F × Bool))} {i : Nat} {cur : ANum F}
      {s : CSState F} {f : Failure},
      merkleLoop hash i cur path s = .error f → f = .allocMissing := by
  intro path
  induction path with
  | nil =>
    intro i cur s f h
    simp [merkleLoop] at h
  | cons e rest ih =>
    intro i cur s f h
    unfold merkleLoop at h
    rcases except_bind_error h with h1 | ⟨⟨bit, s₁⟩, _, h⟩
    · exact allocBit_error h1
    rcases except_bind_error h with h2 | ⟨⟨pe, s₂⟩, _, h⟩
    · exact allocVar_error h2
    rcases except_bind_error h with h3 | ⟨⟨⟨xl, xr⟩, s₃⟩, _, h⟩
    · exact condReverse_error h3
    rcases except_bind_error h with h4 | ⟨⟨cur₁, s₄⟩, _, h⟩
    · exact allocVar_error h4
    exact ih h

theorem witnessBits_assert {s : CSState F} (bytes : List Nat) {n k : Nat}
    (hne : 8 * bytes.length - k ≠ n) :
    witnessBits s (some bytes) n k = .error .assertBitLength := by
  unfold witnessBits
  dsimp only
  rw [if_pos]
  rw [List.length_map, List.length_drop, allBits_length]
  exact hne

theorem allocBits_some_ok : ∀ (bs : List Bool) (s : CSState F),
    ∃ out t, allocBits (bs.map some) s = .ok (out, t) ∧
      out.length = bs.length ∧ out.map ABit.value = bs.map some := by
  intro bs
  induction bs with
  | nil => intro s; exact ⟨[], s, rfl, rfl, rfl⟩
  | cons b bs ih =>
    intro s
    have hb : allocBit s (some b) = .ok (⟨s.assignment.length + 1, some b⟩,
        enforceCon (pushA s (if s.proving then some (boolF b) else none))
          ⟨[(0, 1), (s.assignment.length + 1, -1)],
            [(s.assignment.length + 1, 1)], []⟩) := by
      unfold allocBit
      rw [if_neg (by simp)]
      rfl
    obtain ⟨out, t, heq, hlen, hvals⟩ :=
      ih (enforceCon (pushA s (if s.proving then some (boolF b) else none))
        ⟨[(0, 1), (s.assignment.length + 1, -1)],
          [(s.assignment.length + 1, 1)], []⟩)
    refine ⟨⟨s.assignment.length + 1, some b⟩ :: out, t, ?_,
      by simp [hlen], by simp [hvals]⟩
    simp only [List.map_cons, allocBits, hb, ok_bind, heq]

theorem allocBits_none_shape : ∀ (n : Nat) (s : CSState F),
    s.proving = false →
    ∃ out t, allocBits (List.replicate n none) s = .ok (out, t) ∧
      out.length = n ∧ (∀ ab ∈ out, ab.value = none) ∧
      t.proving = false := by
  intro n
  induction n with
  | zero =>
    intro s hp
    exact ⟨[], s, rfl, rfl, by simp, hp⟩
  | succ n ih =>
    intro s hp
    have hb : allocBit s none = .ok (⟨s.assignment.length + 1, none⟩,
        enforceCon (pushA s none)
          ⟨[(0, 1), (s.assignment.length + 1, -1)],
            [(s.assignment.length + 1, 1)], []⟩) := by
      unfold allocBit
      rw [if_neg (by simp [hp])]
      simp [hp]
    obtain ⟨out, t, heq, hlen, hvals, hpt⟩ :=
      ih (enforceCon (pushA s none)
        ⟨[(0, 1), (s.assignment.length + 1, -1)],
          [(s.assignment.length + 1, 1)], []⟩)
        (by simp [enforceCon, pushA, hp])
    refine ⟨⟨s.assignment.length + 1, none⟩ :: out, t, ?_,
      by simp [hlen], ?_, hpt⟩
    · rw [List.replicate_succ]
      simp only [allocBits, hb, ok_bind, heq]
    · intro ab hab
      rcases List.mem_cons.mp hab with h | h
      · rw [h]
      · exact hvals ab h

theorem u64Bits_length : ∀ (n v : Nat), (u64Bits n v).length = n := by
  intro n
  induction n with
  | zero => intro v; rfl
  | succ n ih =>
    intro v
    simp only [u64Bits, List.length_cons, ih]

theorem u64Bits_testBit : ∀ (n v i : Nat), i < n →
    (u64Bits n v)[i]? = some (v.testBit i) := by
  intro n
  induction n with
  | zero =>
    intro v i hi
    omega
  | succ n ih =>
    intro v i hi
    cases i with
    | zero =>
      simp only [u64Bits, List.getElem?_cons_zero, Option.some.injEq]
      rw [Nat.and_one_is_mod, Nat.testBit_zero]
      by_cases h : v % 2 = 1 <;> simp [h]
    | succ i =>
      simp only [u64Bits, List.getElem?_cons_succ]
      rw [ih (v >>> 1) i (by omega), Nat.testBit_add_one,
        Nat.shiftRight_one]

theorem mod_two_pow_succ (v n : Nat) :
    v % 2 ^ (n + 1) = v % 2 + 2 * (v / 2 % 2 ^ n) := by
  rw [pow_succ, mul_comm (2 ^ n) 2, Nat.mod_mul]

theorem packVal_u64Bits : ∀ (n v : Nat) (coeff : F),
    packVal coeff (u64Bits n v) = coeff * ((v % 2 ^ n : Nat) : F) := by
  intro n
  induction n with
  | zero =>
    intro v coeff
    simp [u64Bits, packVal, Nat.mod_one]
  | succ n ih =>
    intro v coeff
    simp only [u64Bits, packVal]
    rw [ih (v >>> 1) (coeff * 2), Nat.shiftRight_one, mod_two_pow_succ]
    push_cast
    rcases Nat.mod_two_eq_zero_or_one v with h | h <;>
      rw [Nat.and_one_is_mod, h] <;> simp <;> ring

theorem noteValueNew_spec {s : CSState F} (hp : s.proving = true)
    (v : Nat) :
    ∃ nv t, noteValueNew s (some v) = .ok (nv, t) ∧ CSExt s t ∧
      (GoodCS s → GoodCS t) ∧ nv.value = some v ∧
      nv.bits.length = 64 ∧
      nv.bits.map ABit.value = (u64Bits 64 v).map some ∧
      evalLC (asg t) (noteLC nv) = ((v % 2 ^ 64 : Nat) : F) := by
  obtain ⟨out, t, heq, hext, hgood, hlen, hbits, hvals, _, _⟩ :=
    allocBits_spec (u64Bits 64 v) s hp
  refine ⟨⟨some v, out⟩, t, ?_, hext, hgood, rfl,
    by rw [hlen, u64Bits_length], hvals, ?_⟩
  · unfold noteValueNew
    dsimp only
    rw [heq]
  · unfold noteLC
    rw [show (⟨some v, out⟩ : NoteValue).bits = out from rfl,
      evalLC_packLC out (u64Bits 64 v) hvals hbits 1,
      packVal_u64Bits, one_mul]

theorem chunksOf_append8 {α : Type} (g l : List α) (hg : g.length = 8) :
    chunksOf 8 (g ++ l) = g :: chunksOf 8 l := by
  cases g with
  | nil => simp at hg
  | cons a g₁ =>
    have hg₁ : g₁.length = 7 := by simpa using hg
    rw [show (a :: g₁) ++ l = a :: (g₁ ++ l) from rfl, chunksOf]
    rw [show (8 : Nat) - 1 = 7 from rfl, ← hg₁, List.take_left,
      List.drop_left]

theorem chunksOf8_flatten : ∀ (groups : List (List ABit)),
    (∀ g ∈ groups, g.length = 8) →
    chunksOf 8 groups.flatten = groups := by
  intro groups
  induction groups with
  | nil =>
    intro _
    simp [chunksOf]
  | cons g gs ih =>
    intro h8
    rw [List.flatten_cons, chunksOf_append8 g _ (h8 g (by simp)),
      ih (fun g₁ hg₁ => h8 g₁ (by simp [hg₁]))]

theorem merkleSynthesize_error {hash : Nat → F → F → F} {leaf : Option F}
    {authPath : List (Option (F × Bool))} {anchor : Option F}
    {s : CSState F} {f : Failure}
    (h : merkleSynthesize hash leaf authPath anchor s = .error f) :
    f = .allocMissing := by
  unfold merkleSynthesize at h
  rcases except_bind_error h with h1 | ⟨⟨cm, s₁⟩, _, h⟩
  · exact allocVar_error h1
  rcases except_bind_error h with h2 | ⟨⟨cur, s₂⟩, _, h⟩
  · exact merkleLoop_error hash h2
  rcases except_bind_error h with h3 | ⟨⟨rt, s₃⟩, _, h⟩
  · exact allocVar_error h3
  rcases except_bind_error h with h4 | ⟨⟨inp, s₄⟩, _, h⟩
  · exact inputizeNum_error h4
  simp at h

theorem error_bind {ε α β : Type} (e : ε) (f : α → Except ε β) :
    (Except.error e >>= f) = .error e := rfl

theorem unwrapW_allocMissing :
    unwrapW (F := F) (.error .allocMissing) = .error .unwrapPanic := rfl

theorem witnessU256_none_proving {s : CSState F} (hp : s.proving = true) :
    witnessU256 s (none : Option (List Nat)) = .error .allocMissing := by
  unfold witnessU256 witnessBits
  dsimp only
  rw [if_neg (by simp)]
  rw [show (256 : Nat) = 255 + 1 from rfl, List.replicate_succ]
  unfold allocBits
  have hb : allocBit (F := F) s none = .error .allocMissing := by
    unfold allocBit
    rw [if_pos (by simp [hp])]
  rw [hb]
  rfl

end Lemmas

section Claims

/-- C1 (code bug): the single root constraint registered by
`MerklePedersen::synthesize` is written `A = cur`, `B = rt`, `C = 0`,
i.e. it enforces `cur · rt = 0`, not `cur = rt` (contradicting both the
claim and the source's own comment `(cur - rt) * value = 0`).  At the
failing input (empty path, leaf 1, anchor 1) the recomputed root equals
the anchor witness (`asg 1 = asg 2 = 1`), yet the root constraint
`cur · rt = 0` — the first constraint of the resulting system — is
violated, so the system is unsatisfied. -/
theorem claim_C1 :
    merkleSynthesize (F := Fp) hashOne (some 1) [] (some 1)
      (initCS true) = .ok c1State ∧
    asg c1State 1 = asg c1State 2 ∧
    satB c1State = false ∧
    ¬ holds (asg c1State) ⟨[(1, 1)], [(2, 1)], []⟩ := by
  decide

/-- C2 (code bug): at a depth-8 instance whose authentication path and
anchor are computed honestly by the out-of-circuit reference hash ladder
(`refMerkleRoot`), synthesis succeeds but the resulting constraint
system is NOT satisfied, because the root constraint `cur · rt = 0`
fails whenever the honest root is nonzero.  This refutes the round-trip
membership property as stated. -/
theorem claim_C2 :
    Except.map satB (merkleSynthesize (F := Fp) hashOne (some 0)
      (c2path.map some) (some (refMerkleRoot hashOne 0 c2path))
      (initCS true)) = .ok false ∧
    refMerkleRoot hashOne 0 c2path ≠ 0 := by
  decide

/-- C3: `JoinSplit::synthesize` registers no constraint relating the
recomputed root (the final `cur`) to the witnessed root bits `rt` (the
equality check is commented out in the source): for EVERY 32-byte `rt`
— in particular one different from the recomputed root — and every
internally consistent input (a 32-byte leaf, any authentication path of
32-byte siblings and side bits), synthesis succeeds and every registered
constraint is satisfied. -/
theorem claim_C3 {F : Type} [CommRing F] [DecidableEq F]
    (sha : List Bool → List Bool) (rt leaf : List Nat)
    (path : List (List Nat × Bool)) (hrt : rt.length = 32)
    (hleaf : leaf.length = 32) (hpath : ∀ p ∈ path, p.1.length = 32) :
    ∃ t, jsSynthesize (F := F) sha [⟨some leaf, path.map some⟩]
        (some rt) (initCS true) = .ok t ∧ satB t = true :=
  c3_layers_sat sha rt leaf path hrt hleaf hpath

/-- Witness for C3: a concrete depth-1 instance over the BLS12-381
scalar field whose `rt` (all bytes 1) differs from the recomputed root. -/
theorem claim_C3_witness :
    ∃ t, jsSynthesize (F := Fp) shaZero
        [⟨some bytes0, [(bytes0, false)].map some⟩] (some bytes1)
        (initCS true) = .ok t ∧ satB t = true :=
  claim_C3 shaZero bytes1 bytes0 [(bytes0, false)] (by decide) (by decide)
    (by decide)

/-- C4: `JoinSplit::synthesize` begins with
`assert_eq!(self.inputs.len(), 1)`: any input count other than one
aborts with that assertion (before any witness is allocated — the
assertion is the first statement and the returned failure carries no
state), and with exactly one input that assertion can never be the
outcome of synthesis. -/
theorem claim_C4 {F : Type} [CommRing F] [DecidableEq F]
    (sha : List Bool → List Bool) (inputs : List JSInput)
    (rt : Option (List Nat)) (s : CSState F) :
    (inputs.length ≠ 1 →
      jsSynthesize sha inputs rt s = .error .assertInputCount) ∧
    (inputs.length = 1 → ∀ f, jsSynthesize sha inputs rt s = .error f →
      f ≠ .assertInputCount) := by
  constructor
  · intro h
    unfold jsSynthesize
    rw [if_pos h]
  · intro hlen f h
    exact jsSynthesize_len1_error hlen h

/-- Witness for C4: zero inputs abort with the input-count assertion. -/
theorem claim_C4_witness :
    jsSynthesize (F := Fp) shaZero [] none (initCS true) =
      .error .assertInputCount :=
  (claim_C4 shaZero [] none (initCS true)).1 (by decide)

/-- C5: for a concrete byte value, `witness_bits` hits its
`assert_eq!` exactly when `8·len(value) − skip_bits ≠ num_bits`
(no silent truncation or padding), and otherwise returns exactly
`num_bits` boolean witnesses carrying the remaining bits. -/
theorem claim_C5 {F : Type} [CommRing F] [DecidableEq F] (s : CSState F)
    (bytes : List Nat) (numBits skipBits : Nat) :
    (8 * bytes.length - skipBits ≠ numBits →
      witnessBits s (some bytes) numBits skipBits =
        .error .assertBitLength) ∧
    (8 * bytes.length - skipBits = numBits →
      ∃ out t, witnessBits s (some bytes) numBits skipBits =
          .ok (out, t) ∧ out.length = numBits ∧
        out.map ABit.value = ((allBits bytes).drop skipBits).map some) := by
  constructor
  · intro hne
    exact witnessBits_assert bytes hne
  · intro heq
    obtain ⟨out, t, hok, hlen, hvals⟩ :=
      allocBits_some_ok ((allBits bytes).drop skipBits) s
    have hbl : ((allBits bytes).drop skipBits).length = numBits := by
      rw [List.length_drop, allBits_length]
      exact heq
    refine ⟨out, t, ?_, by rw [hlen, hbl], hvals⟩
    unfold witnessBits
    dsimp only
    rw [if_neg (by
      simp only [List.length_map, List.length_drop, allBits_length, ne_eq,
        heq, not_true_eq_false, not_false_eq_true])]
    exact hok

/-- Witness for C5: 32 zero bytes with `num_bits = 7` abort; with
`num_bits = 256` they yield 256 boolean witnesses. -/
theorem claim_C5_witness :
    witnessBits (F := Fp) (initCS true) (some bytes0) 7 0 =
      .error .assertBitLength ∧
    (∃ out t, witnessBits (F := Fp) (initCS true) (some bytes0) 256 0 =
        .ok (out, t) ∧ out.length = 256 ∧
      out.map ABit.value = ((allBits bytes0).drop 0).map some) :=
  ⟨(claim_C5 (initCS true) bytes0 7 0).1 (by decide),
    (claim_C5 (initCS true) bytes0 256 0).2 (by decide)⟩

/-- C6: `NoteValue::new(Some(v))` allocates 64 boolean witnesses, least
significant bit first, whose values are the binary expansion of `v`, and
the linear combination returned by `lc()` (bits weighted by ascending
powers of two) evaluates, under the recorded assignment, to `v` itself. -/
theorem claim_C6 {F : Type} [CommRing F] [DecidableEq F] {s : CSState F}
    (hp : s.proving = true) (v : Nat) (hv : v < 2 ^ 64) :
    ∃ nv t, noteValueNew s (some v) = .ok (nv, t) ∧
      nv.bits.length = 64 ∧
      (∀ i, i < 64 →
        (nv.bits.map ABit.value)[i]? = some (some (v.testBit i))) ∧
      evalLC (asg t) (noteLC nv) = (v : F) := by
  obtain ⟨nv, t, heq, hext, hgood, hval, hlen, hvals, heval⟩ :=
    noteValueNew_spec hp v
  refine ⟨nv, t, heq, hlen, ?_, ?_⟩
  · intro i hi
    rw [hvals, List.getElem?_map, u64Bits_testBit 64 v i hi]
    rfl
  · rw [heval, Nat.mod_eq_of_lt hv]

/-- Witness for C6: the value 5 over the BLS12-381 scalar field. -/
theorem claim_C6_witness :
    ∃ nv t, noteValueNew (F := Fp) (initCS true) (some 5) = .ok (nv, t) ∧
      nv.bits.length = 64 ∧
      (∀ i, i < 64 →
        (nv.bits.map ABit.value)[i]? = some (some (Nat.testBit 5 i))) ∧
      evalLC (asg t) (noteLC nv) = (5 : Fp) :=
  claim_C6 (s := initCS true) rfl 5 (by decide)

/-- C7: in both walkers' per-layer conditional swap the computed outputs
are `(xl, xr) = (path_element, cur)` when the side bit is true and
`(cur, path_element)` when it is false, the swap constraints are
registered on the constraint system, and those constraints by themselves
force the outputs (for any assignment in which the bit wire is boolean),
so the selection is enforced in-circuit, not merely computed. -/
theorem claim_C7 {F : Type} [CommRing F] [DecidableEq F] :
    (∀ (s : CSState F) (a b : ANum F) (bit : ABit) (av bv : F)
      (c : Bool), s.proving = true → a.value = some av →
      b.value = some bv → bit.value = some c →
      ∃ x y t, condReverse s a b bit = .ok ((x, y), t) ∧
        x.value = some (if c then bv else av) ∧
        y.value = some (if c then av else bv) ∧
        swapConstrA a.var b.var bit.var x.var ∈ t.constraints ∧
        swapConstrB a.var b.var bit.var y.var ∈ t.constraints) ∧
    (∀ (s : CSState F) (cond a b : ABit) (av bv c : Bool),
      s.proving = true → a.value = some av → b.value = some bv →
      cond.value = some c →
      ∃ x y t, condSwapPair s cond a b = .ok ((x, y), t) ∧
        x.value = some (if c then bv else av) ∧
        y.value = some (if c then av else bv) ∧
        swapConstrA a.var b.var cond.var x.var ∈ t.constraints ∧
        swapConstrB a.var b.var cond.var y.var ∈ t.constraints) ∧
    (∀ (f : Nat → F) (aV bV bitV xV yV : Nat),
      f bitV = 0 ∨ f bitV = 1 →
      ((holds f (swapConstrA aV bV bitV xV) ∧
        holds f (swapConstrB aV bV bitV yV)) ↔
        ((f bitV = 1 → f xV = f bV ∧ f yV = f aV) ∧
         (f bitV = 0 → f xV = f aV ∧ f yV = f bV)))) := by
  refine ⟨?_, ?_, ?_⟩
  · intro s a b bit av bv c hp ha hb hc
    obtain ⟨t₁, heq₁, he₁, hg₁, hn₁, hlen₁, hp₁⟩ :=
      allocVar_some_spec hp (if c then bv else av)
    obtain ⟨t₂, heq₂, he₂, hg₂, hn₂, hlen₂, hp₂⟩ :=
      allocVar_some_spec hp₁ (if c then av else bv)
    refine ⟨⟨s.assignment.length + 1, some (if c then bv else av)⟩,
      ⟨t₁.assignment.length + 1, some (if c then av else bv)⟩,
      enforceCon (enforceCon t₂
          (swapConstrA a.var b.var bit.var (s.assignment.length + 1)))
        (swapConstrB a.var b.var bit.var (t₁.assignment.length + 1)),
      ?_, rfl, rfl, ?_, ?_⟩
    · simp only [condReverse, hc, ha, hb, heq₁, ok_bind, heq₂]
    · simp [enforceCon]
    · simp [enforceCon]
  · intro s cond a b av bv c hp ha hb hc
    obtain ⟨t₁, heq₁, he₁, hg₁, hb₁, hlen₁, hp₁⟩ :=
      allocBit_some_spec hp (if c then bv else av)
    obtain ⟨t₂, heq₂, he₂, hg₂, hb₂, hlen₂, hp₂⟩ :=
      allocBit_some_spec hp₁ (if c then av else bv)
    refine ⟨⟨s.assignment.length + 1, some (if c then bv else av)⟩,
      ⟨t₁.assignment.length + 1, some (if c then av else bv)⟩,
      enforceCon (enforceCon t₂
          (swapConstrA a.var b.var cond.var (s.assignment.length + 1)))
        (swapConstrB a.var b.var cond.var (t₁.assignment.length + 1)),
      ?_, rfl, rfl, ?_, ?_⟩
    · simp only [condSwapPair, hc, ha, hb, heq₁, ok_bind, heq₂]
    · simp [enforceCon]
    · simp [enforceCon]
  · intro f aV bV bitV xV yV hbit
    rw [holds_swapA, holds_swapB]
    rcases hbit with h0 | h1
    · constructor
      · rintro ⟨hA, hB⟩
        rw [h0, mul_zero] at hA hB
        refine ⟨fun h1 => ?_, fun _ =>
          ⟨sub_eq_zero.mp hA.symm, sub_eq_zero.mp hB.symm⟩⟩
        have h01 : (0 : F) = 1 := h0 ▸ h1
        have hsub := subsingleton_of_zero_eq_one h01
        exact ⟨Subsingleton.elim _ _, Subsingleton.elim _ _⟩
      · rintro ⟨h1imp, h0imp⟩
        obtain ⟨hx, hy⟩ := h0imp h0
        simp [h0, hx, hy]
    · constructor
      · rintro ⟨hA, hB⟩
        rw [h1, mul_one] at hA hB
        refine ⟨fun _ =>
          ⟨(sub_left_inj.mp hA).symm, (sub_left_inj.mp hB).symm⟩,
          fun h0 => ?_⟩
        have h01 : (0 : F) = 1 := h0 ▸ h1
        have hsub := subsingleton_of_zero_eq_one h01
        exact ⟨Subsingleton.elim _ _, Subsingleton.elim _ _⟩
      · rintro ⟨h1imp, h0imp⟩
        obtain ⟨hx, hy⟩ := h1imp h1
        simp [h1, hx, hy]

/-- Witness for C7: the field-element swap on concrete wires 1, 2 with a
true side bit on wire 3 over the BLS12-381 scalar field. -/
theorem claim_C7_witness :
    ∃ x y t, condReverse (F := Fp) (initCS true) ⟨1, some 3⟩ ⟨2, some 4⟩
        ⟨3, some true⟩ = .ok ((x, y), t) ∧
      x.value = some 4 ∧ y.value = some 3 ∧
      swapConstrA 1 2 3 x.var ∈ t.constraints ∧
      swapConstrB 1 2 3 y.var ∈ t.constraints := by
  have h := (claim_C7 (F := Fp)).1 (initCS true) ⟨1, some 3⟩ ⟨2, some 4⟩
    ⟨3, some true⟩ 3 4 true rfl rfl rfl rfl
  simpa using h

/-- C8: `NoteValue::bits_le` applied to bits laid out as consecutive
groups of 8 returns the groups in their original order with the bit
order reversed inside each group (big-endian within each byte, byte
order preserved); the 64 allocated bits are the 8-group instance. -/
theorem claim_C8 (groups : List (List ABit))
    (h8 : ∀ g ∈ groups, g.length = 8) (val : Option Nat) :
    bitsLe ⟨val, groups.flatten⟩ = (groups.map List.reverse).flatten := by
  unfold bitsLe
  rw [show (⟨val, groups.flatten⟩ : NoteValue).bits = groups.flatten
    from rfl, chunksOf8_flatten groups h8]

/-- Witness for C8: two concrete byte groups. -/
theorem claim_C8_witness :
    bitsLe ⟨none,
      ([[⟨1, none⟩, ⟨2, none⟩, ⟨3, none⟩, ⟨4, none⟩, ⟨5, none⟩,
          ⟨6, none⟩, ⟨7, none⟩, ⟨8, none⟩],
        [⟨9, none⟩, ⟨10, none⟩, ⟨11, none⟩, ⟨12, none⟩, ⟨13, none⟩,
          ⟨14, none⟩, ⟨15, none⟩, ⟨16, none⟩]] :
        List (List ABit)).flatten⟩ =
      (([[⟨1, none⟩, ⟨2, none⟩, ⟨3, none⟩, ⟨4, none⟩, ⟨5, none⟩,
          ⟨6, none⟩, ⟨7, none⟩, ⟨8, none⟩],
        [⟨9, none⟩, ⟨10, none⟩, ⟨11, none⟩, ⟨12, none⟩, ⟨13, none⟩,
          ⟨14, none⟩, ⟨15, none⟩, ⟨16, none⟩]] :
        List (List ABit)).map List.reverse).flatten :=
  claim_C8 _ (by decide) none

/-- C9 counterexample: when proving with `rt` absent, the failure from
witnessing `rt` in `JoinSplit::synthesize` is NOT propagated as the
error result of the call (which would be `allocMissing`); the source
`.unwrap()`s it, i.e. aborts by panic. -/
theorem claim_C9_counterexample :
    jsSynthesize (F := Fp) shaZero [⟨some bytes0, []⟩] none
      (initCS true) = .error .unwrapPanic ∧
    Failure.unwrapPanic ≠ Failure.allocMissing := by
  decide

/-- C9 (amended): every failure of `MerklePedersen::synthesize` is
propagated as the single `SynthesisError` result (`allocMissing`), with
no partial-success state; but in `JoinSplit::synthesize` the results of
witnessing `rt` and `leaf` are `.unwrap()`ed, so failures there abort
by panic instead of being returned (parts 2 and 3: with `rt`
respectively `leaf` absent while proving, the outcome is the unwrap
panic), while the remaining JoinSplit failures are propagated as the
error result (part 4: a missing side bit yields the returned
`allocMissing`; part 5: the layer walk itself never converts a failure
into an unwrap panic). -/
theorem claim_C9 {F : Type} [CommRing F] [DecidableEq F] :
    (∀ (hash : Nat → F → F → F) (leaf : Option F)
      (authPath : List (Option (F × Bool))) (anchor : Option F)
      (s : CSState F) (f : Failure),
      merkleSynthesize hash leaf authPath anchor s = .error f →
        f = .allocMissing) ∧
    (∀ (sha : List Bool → List Bool) (inputs : List JSInput)
      (s : CSState F), inputs.length = 1 → s.proving = true →
      jsSynthesize sha inputs none s = .error .unwrapPanic) ∧
    (∀ (sha : List Bool → List Bool) (rt : List Nat)
      (authPath : List (Option (List Nat × Bool))) (s : CSState F),
      rt.length = 32 → s.proving = true →
      jsSynthesize sha [⟨none, authPath⟩] (some rt) s =
        .error .unwrapPanic) ∧
    (∀ (sha : List Bool → List Bool) (rt leaf : List Nat)
      (rest : List (Option (List Nat × Bool))) (s : CSState F),
      rt.length = 32 → leaf.length = 32 → s.proving = true →
      jsSynthesize sha [⟨some leaf, none :: rest⟩] (some rt) s =
        .error .allocMissing) ∧
    (∀ (sha : List Bool → List Bool)
      (path : List (Option (List Nat × Bool))) (cur : List ABit)
      (s : CSState F) (f : Failure),
      jsLayers sha path cur s = .error f → f ≠ .unwrapPanic) := by
  refine ⟨?_, ?_, ?_, ?_, ?_⟩
  · intro hash leaf authPath anchor s f h
    exact merkleSynthesize_error h
  · intro sha inputs s hlen hp
    unfold jsSynthesize
    rw [if_neg (by simp [hlen])]
    rw [witnessU256_none_proving hp]
    rfl
  · intro sha rt authPath s hrt hp
    unfold jsSynthesize
    rw [if_neg (by simp)]
    obtain ⟨rtBits, s₁, heq₁, he₁, hg₁, hb₁, hl₁, hv₁, ha₁, hp₁⟩ :=
      witnessBits_some_spec hp rt 256 0 (by rw [hrt])
    have hloop : jsInputsLoop sha [(⟨none, authPath⟩ : JSInput)] s₁ =
        .error .unwrapPanic := by
      simp only [jsInputsLoop, witnessU256_none_proving hp₁,
        unwrapW_allocMissing, error_bind]
    simp only [witnessU256, heq₁, unwrapW, ok_bind, hloop, error_bind]
  · intro sha rt leaf rest s hrt hleaf hp
    unfold jsSynthesize
    rw [if_neg (by simp)]
    obtain ⟨rtBits, s₁, heq₁, he₁, hg₁, hb₁, hl₁, hv₁, ha₁, hp₁⟩ :=
      witnessBits_some_spec hp rt 256 0 (by rw [hrt])
    obtain ⟨leafBits, s₂, heq₂, he₂, hg₂, hb₂, hl₂, hv₂, ha₂, hp₂⟩ :=
      witnessBits_some_spec hp₁ leaf 256 0 (by rw [hleaf])
    have hbit : allocBit (F := F) s₂ (none : Option Bool) =
        .error .allocMissing := by
      unfold allocBit
      rw [if_pos (by simp [hp₂])]
    have hlayers : jsLayers sha
        ((none : Option (List Nat × Bool)) :: rest) leafBits s₂ =
        .error .allocMissing := by
      simp only [jsLayers, Option.map_none, Option.map_none', hbit,
        error_bind]
    simp only [witnessU256, heq₁, unwrapW, ok_bind, jsInputsLoop, heq₂,
      hlayers, error_bind]
  · intro sha path cur s f h
    rcases jsLayers_error sha h with h1 | h1 <;> simp [h1]

/-- Witness for C9 (amended): concrete instances of the JoinSplit parts —
absent `rt` panics at the unwrap, an absent `leaf` (with `rt` present)
panics at the unwrap, and a missing side bit (with `rt` and `leaf`
present) is returned as the `allocMissing` error result. -/
theorem claim_C9_witness :
    jsSynthesize (F := Fp) shaZero [⟨some bytes0, []⟩] none
      (initCS true) = .error .unwrapPanic ∧
    jsSynthesize (F := Fp) shaZero [⟨none, []⟩] (some bytes0)
      (initCS true) = .error .unwrapPanic ∧
    jsSynthesize (F := Fp) shaZero [⟨some bytes0, [none]⟩] (some bytes1)
      (initCS true) = .error .allocMissing :=
  ⟨(claim_C9 (F := Fp)).2.1 shaZero [⟨some bytes0, []⟩] (initCS true)
      (by decide) rfl,
    (claim_C9 (F := Fp)).2.2.1 shaZero bytes0 [] (initCS true)
      (by decide) rfl,
    (claim_C9 (F := Fp)).2.2.2.1 shaZero bytes1 bytes0 [] (initCS true)
      (by decide) (by decide) rfl⟩

/-- C10: `witness_bits` with an absent value allocates exactly
`num_bits` unknown boolean witnesses: the result is independent of
`skip_bits`, the bit-length `assert_eq!` can never fire (it is checked
against `vec![None; num_bits]`), and in shape-only synthesis (where
unknown witnesses are allocatable) the call always succeeds with
`num_bits` value-less bits. -/
theorem claim_C10 {F : Type} [CommRing F] [DecidableEq F] (s : CSState F)
    (numBits skipBits skipBits' : Nat) :
    witnessBits s none numBits skipBits =
      witnessBits s none numBits skipBits' ∧
    (∀ f, witnessBits s none numBits skipBits = .error f →
      f ≠ .assertBitLength) ∧
    (s.proving = false →
      ∃ out t, witnessBits s none numBits skipBits = .ok (out, t) ∧
        out.length = numBits ∧ ∀ ab ∈ out, ab.value = none) := by
  refine ⟨rfl, ?_, ?_⟩
  · intro f h
    unfold witnessBits at h
    dsimp only at h
    rw [if_neg (by simp)] at h
    have hres := allocBits_error h
    simp [hres]
  · intro hp
    obtain ⟨out, t, heq, hlen, hvals, hpt⟩ :=
      allocBits_none_shape numBits s hp
    refine ⟨out, t, ?_, hlen, hvals⟩
    unfold witnessBits
    dsimp only
    rw [if_neg (by simp)]
    exact heq

/-- Witness for C10: 256 bits, skips 0 and 4, on a shape-only state. -/
theorem claim_C10_witness :
    witnessBits (F := Fp) (initCS false) none 256 0 =
      witnessBits (F := Fp) (initCS false) none 256 4 ∧
    (∃ out t, witnessBits (F := Fp) (initCS false) none 256 0 =
        .ok (out, t) ∧ out.length = 256 ∧ ∀ ab ∈ out, ab.value = none) :=
  ⟨(claim_C10 (initCS false) 256 0 4).1,
    (claim_C10 (initCS false) 256 0 4).2.2 rfl⟩

end Claims
